import Mathlib

/-!
Verification of the PyMPC tube-based MPC core against its specification.

The development shallowly embeds, over the rationals:
  * the H-representation polyhedron set algebra (the `Polyhedron` class is not
    part of the provided sources, so its operations are modelled from the
    spec, section 4.2, as noted on each definition);
  * the support-function oracle `support_fun` (src/pympc/set/base.py);
  * the two-phase disturbance-invariant-set solver and the tube-based MPC
    controller (src/pympc/mpc/tube_based_mpc.py);
  * the ellipsoidal set representation (src/pympc/set/ellipsoid.py).

The external convex solver is out of scope for the repository (spec section 1)
and is modelled as an oracle parameter; an exact executable oracle for the
one-dimensional polyhedra used in concrete runs is provided and proved to
return the true optimum of the corresponding linear program.
-/

set_option maxRecDepth 400000

namespace PyMPC

open Matrix

/-- Square rational matrix, the embedding of the numpy 2-D arrays used for
system matrices. -/
abbrev Mat (n : ℕ) := Matrix (Fin n) (Fin n) ℚ

/-- Determinant by Laplace expansion along the first column, an executable
form of `Matrix.det` (proved equal to it below). -/
def detQ : {m : ℕ} → Mat m → ℚ
  | 0, _ => 1
  | m + 1, M =>
    (((List.finRange (m + 1)).map fun (i : Fin (m + 1)) =>
      (-1) ^ (i : ℕ) * M i 0 * detQ (M.submatrix i.succAbove Fin.succ)).sum)

/-- Adjugate by cofactors, an executable form of `Matrix.adjugate` (proved
equal to it below). -/
def adjQ : {m : ℕ} → Mat m → Mat m
  | 0, _ => 1
  | _ + 1, M => fun i j =>
    (-1) ^ ((j : ℕ) + (i : ℕ)) * detQ (M.submatrix j.succAbove i.succAbove)

/-- Computable matrix inverse used to embed `numpy.linalg.inv`: `some` of the
inverse (determinant-inverse times adjugate) when the determinant is nonzero,
`none` when the matrix is singular (where numpy raises `LinAlgError`). -/
def qInv {n : ℕ} (M : Mat n) : Option (Mat n) :=
  if detQ M = 0 then none else some ((detQ M)⁻¹ • adjQ M)

/-- Modelled from the spec (section 3, the `Polyhedron` data model; the class
itself is not among the provided sources): a matrix of half-space normals
`l_mat` (one row per half-space) and a vector of offsets `r_vec`; the set is
all x with `l_mat * x ≤ r_vec` componentwise.  The dimension `n` is a type
index, matching the spec's "dimension is fixed at construction and immutable";
`m` is the edge count. -/
structure Polyhedron (n : ℕ) where
  m : ℕ
  l_mat : Matrix (Fin m) (Fin n) ℚ
  r_vec : Fin m → ℚ

namespace Polyhedron

/-- Modelled from the spec: derived attribute, the dimension. -/
def n_dim {n : ℕ} (_ : Polyhedron n) : ℕ := n

/-- Modelled from the spec: derived attribute, the edge count. -/
def n_edges {n : ℕ} (P : Polyhedron n) : ℕ := P.m

/-- Modelled from the spec: the containment predicate — all `m` inequalities
hold (`contains` for a concrete point). -/
def sem {n : ℕ} (P : Polyhedron n) : Set (Fin n → ℚ) :=
  fun x => ∀ i : Fin P.m, P.l_mat i ⬝ᵥ x ≤ P.r_vec i

/-- Offset vector indexed by a plain natural number, with a default outside
the edge range (the Python code indexes `r_vec` positionally). -/
def rAt {n : ℕ} (P : Polyhedron n) (i : ℕ) : ℚ :=
  if h : i < P.m then P.r_vec ⟨i, h⟩ else 0

/-- Modelled from the spec: the affine transform `self @ M` builds the
pre-image description — the polyhedron with normals `l_mat * M` and the same
offsets. -/
def matmul {n : ℕ} (P : Polyhedron n) (M : Mat n) : Polyhedron n :=
  ⟨P.m, P.l_mat * M, P.r_vec⟩

/-- Modelled from the spec: scaling `self * c` leaves `l_mat` unchanged and
scales the offsets.  (The spec also rejects negative factors; every use below
has a nonnegative factor, and no claim concerns the rejection, so the check is
not modelled.) -/
def mul {n : ℕ} (P : Polyhedron n) (c : ℚ) : Polyhedron n :=
  ⟨P.m, P.l_mat, fun i => c * P.r_vec i⟩

/-- Modelled from the spec: translation `self + v` for a point `v` — same
normals, offsets `r + L·v`. -/
def addVec {n : ℕ} (P : Polyhedron n) (v : Fin n → ℚ) : Polyhedron n :=
  ⟨P.m, P.l_mat, fun i => P.r_vec i + P.l_mat i ⬝ᵥ v⟩

end Polyhedron

/-- The support-function oracle interface for dimension `n` (the convex solver
is out of scope per spec section 1 and is treated as a black box returning the
optimal value of the posed program). -/
def SupOracle (n : ℕ) := (Fin n → ℚ) → Polyhedron n → ℚ

namespace Polyhedron

/-- Modelled from the spec: Minkowski sum of two polyhedra — the result keeps
`self`'s normals and adds `other`'s support value in each of those
directions. -/
def add {n : ℕ} (sup : SupOracle n) (P Q : Polyhedron n) : Polyhedron n :=
  ⟨P.m, P.l_mat, fun i => P.r_vec i + sup (P.l_mat i) Q⟩

/-- Modelled from the spec: Pontryagin difference — the result keeps `self`'s
normals and subtracts `other`'s support value in each direction. -/
def sub {n : ℕ} (sup : SupOracle n) (P Q : Polyhedron n) : Polyhedron n :=
  ⟨P.m, P.l_mat, fun i => P.r_vec i - sup (P.l_mat i) Q⟩

/-- Modelled from the spec: `self.subset_eq other` holds iff for every
half-space normal row of `other`, the support of `self` in that direction is
at most `other`'s offset. -/
def subset_eq {n : ℕ} (sup : SupOracle n) (P Q : Polyhedron n) : Bool :=
  decide (∀ i : Fin Q.m, sup (Q.l_mat i) P ≤ Q.r_vec i)

/-- Modelled from the spec: the forward image `M @ self` under an invertible
matrix is computed as `self @ M⁻¹`; for a singular matrix the hook signals
non-implemented (numpy then raises), modelled as `none`. -/
def lmul {n : ℕ} (M : Mat n) (P : Polyhedron n) : Option (Polyhedron n) :=
  (qInv M).map fun Mi => P.matmul Mi

end Polyhedron

/-- Modelled from the spec (section 4.3): the origin-centred axis-aligned
hypercube of half-width `hw` in dimension `n` (`unit_cube` is imported by the
controller but is not among the provided sources): normals `±eᵢ`, offsets all
`hw`. -/
def unit_cube (n : ℕ) (hw : ℚ) : Polyhedron n :=
  ⟨2 * n,
   fun i j =>
     if (i : ℕ) < n then (if (j : ℕ) = (i : ℕ) then 1 else 0)
     else (if (j : ℕ) = (i : ℕ) - n then -1 else 0),
   fun _ => hw⟩

/-! ## The two-phase disturbance-invariant-set solver

Embedding of `TubeBasedMPC.disturbance_invariant_set`
(src/pympc/mpc/tube_based_mpc.py, lines 47-98).  The `while True` loops are
modelled with an explicit fuel argument (`none` = the loop has not terminated
within the given fuel, which also absorbs the singular-matrix failure of the
left-multiplications); the support-function oracle is a parameter. -/

/-- Phase 1 loop of `disturbance_invariant_set`: state is
`(a_k_s, a_k_s_noise_set, sum_a_k_s_noise_set)`; repeatedly left-multiply by
`a_k` and accumulate until the current term is a subset of `alpha * W`. -/
def phase1 {n : ℕ} (sup : SupOracle n) (a_k : Mat n) (alphaW : Polyhedron n) :
    ℕ → Mat n × Polyhedron n × Polyhedron n →
    Option (Mat n × Polyhedron n × Polyhedron n)
  | 0, _ => none
  | fuel + 1, (pw, tm, sm) =>
    if tm.subset_eq sup alphaW then some (pw, tm, sm)
    else
      match Polyhedron.lmul a_k tm with
      | none => none
      | some tm' => phase1 sup a_k alphaW fuel (a_k * pw, tm', sm.add sup tm')

/-- Phase 2 loop of `disturbance_invariant_set`: the running power is
multiplied before the termination test, as in the source. -/
def phase2 {n : ℕ} (sup : SupOracle n) (a_k : Mat n) (cube : Polyhedron n) :
    ℕ → Mat n × Polyhedron n × Polyhedron n →
    Option (Mat n × Polyhedron n × Polyhedron n)
  | 0, _ => none
  | fuel + 1, (pw, tm, sm) =>
    let pw' := a_k * pw
    if tm.subset_eq sup cube then some (pw', tm, sm)
    else
      match Polyhedron.lmul a_k tm with
      | none => none
      | some tm' => phase2 sup a_k cube fuel (pw', tm', sm.add sup tm')

/-- The scalar `alp` recomputed after phase 1 (lines 72-73): the maximum over
the noise set's edges of `support_fun(noise_set.l_mat[i], term) /
term.r_vec[i]` where `term` is the final phase-1 noise-image term. -/
def alpha_star {n : ℕ} (sup : SupOracle n) (W tm : Polyhedron n) : ℚ :=
  (((List.finRange W.m).map fun i => sup (W.l_mat i) tm / tm.rAt i).max?).getD 0

/-- The phase-1 bound `f_alpha_s_set = sum_a_k_s_noise_set / (1 - alp)`
(line 75); division of a set by a scalar is scaling by its inverse
(`SetBase.__truediv__`, src/pympc/set/base.py line 59-60). -/
def f_alpha_set {n : ℕ} (sup : SupOracle n) (W : Polyhedron n)
    (st : Mat n × Polyhedron n × Polyhedron n) : Polyhedron n :=
  st.2.2.mul (1 / (1 - alpha_star sup W st.2.1))

/-- Embedding of the `disturbance_invariant_set` property: phase 1, the
recomputed `alp` and `f_alpha_s_set`, phase 2, and the final
`a_k_n @ f_alpha_s_set + sum_a_k_n_noise_set`.  `hw` is the half-width of the
phase-2 hypercube (the source passes `2 * epsilon / sqrt(state_dim)`, which
is rational exactly when the state dimension is a perfect square; it is taken
as a parameter here). -/
def disturbance_invariant_set {n : ℕ} (sup : SupOracle n) (a_k : Mat n)
    (W : Polyhedron n) (alpha hw : ℚ) (fuel1 fuel2 : ℕ) :
    Option (Polyhedron n) :=
  match phase1 sup a_k (W.mul alpha) fuel1 (1, W, W) with
  | none => none
  | some st =>
    match phase2 sup a_k (unit_cube n hw) fuel2 st with
    | none => none
    | some (pw2, _, sm2) =>
      match Polyhedron.lmul pw2 (f_alpha_set sup W st) with
      | none => none
      | some g => some (g.add sup sm2)

/-! Canonical iteration sequences, used to state what the loops compute:
`termC ai W j` is the noise-image term after `j` left-multiplications
(each performed as a right-multiplication by the inverse `ai` of `a_k`),
`sumC` the accumulated Minkowski sum `W + a_k W + ... + a_k^j W`, and
`powC a_k j` the running matrix power, in the exact association order the
loops produce them. -/

/-- The `j`-th noise-image term `a_k^j W`, as the loop represents it. -/
def termC {n : ℕ} (ai : Mat n) (W : Polyhedron n) : ℕ → Polyhedron n
  | 0 => W
  | j + 1 => (termC ai W j).matmul ai

/-- The accumulated Minkowski sum of the first `j + 1` noise-image terms. -/
def sumC {n : ℕ} (sup : SupOracle n) (ai : Mat n) (W : Polyhedron n) :
    ℕ → Polyhedron n
  | 0 => W
  | j + 1 => (sumC sup ai W j).add sup (termC ai W (j + 1))

/-- The running matrix power, multiplied on the left as in the loops. -/
def powC {n : ℕ} (a_k : Mat n) : ℕ → Mat n
  | 0 => 1
  | j + 1 => a_k * powC a_k j

/-- Partial Minkowski sum of the noise-image terms with exponents `lo` to
`lo + len` (used only to state claim C3's phase-2-only sum). -/
def sumRange {n : ℕ} (sup : SupOracle n) (ai : Mat n) (W : Polyhedron n)
    (lo : ℕ) : ℕ → Polyhedron n
  | 0 => termC ai W lo
  | len + 1 => (sumRange sup ai W lo len).add sup (termC ai W (lo + len + 1))

/-! ## The support-function oracle entry point

Embedding of `support_fun` (src/pympc/set/base.py, lines 73-83). -/

/-- The exception kinds of the set module (the exception classes live in
`pympc/set/exception.py`, which is not among the provided sources; only the
kind of each error matters to the claims). -/
inductive SetExc
  | typeExc
  | dimensionExc
  | notImplementedExc
  | calculationExc
deriving DecidableEq

/-- A numpy array as far as `support_fun` inspects it: a shape and flat
rational data; `ndim` is the rank and `size` the element count. -/
structure NDArray where
  shape : List ℕ
  data : List ℚ

/-- The rank of the array (`numpy.ndarray.ndim`). -/
def NDArray.ndim (a : NDArray) : ℕ := a.shape.length

/-- The element count of the array (`numpy.ndarray.size`). -/
def NDArray.size (a : NDArray) : ℕ := a.shape.prod

/-- The 1-D array read as a vector of dimension `n` (defined once the size
checks of `support_fun` have passed). -/
def NDArray.vec (a : NDArray) (n : ℕ) : Fin n → ℚ := fun i => a.data.getD i 0

/-- Embedding of `support_fun(eta, s)`: raises a type error unless `eta` is
1-D, a dimension error unless its length equals the set's dimension, and
otherwise poses "maximize eta @ x subject to x in s" and returns the solver
oracle's optimal value. -/
def support_fun {n : ℕ} (sup : SupOracle n) (eta : NDArray)
    (s : Polyhedron n) : Except SetExc ℚ :=
  if eta.ndim ≠ 1 then .error .typeExc
  else if eta.size ≠ s.n_dim then .error .dimensionExc
  else .ok (sup (eta.vec n) s)

/-- The set of values of the linear program posed by `support_fun`: the
values of `eta ⬝ x` over the containment predicate of `s`.  The optimal
value returned by a correct solver oracle is the greatest element of this
set when one exists. -/
def linVals {n : ℕ} (eta : Fin n → ℚ) (s : Polyhedron n) : Set ℚ :=
  fun q => ∃ x, x ∈ s.sem ∧ q = eta ⬝ᵥ x

/-! ## The tube-based MPC controller

Embedding of `TubeBasedMPC` (src/pympc/mpc/tube_based_mpc.py).  The base
class `MPCBase` is not among the provided sources; following the spec
(section 6), it supplies the feedback gain `k` and the finite-horizon
problem, which is modelled as a horizon-solver oracle returning the optimal
nominal initial state and first input, or `none` on infeasibility. -/

/-- Exception kinds of the mpc module (`pympc/mpc/exception.py` is not among
the provided sources; only the kinds matter). -/
inductive MPCExc
  | dimensionExc
  | calculationExc
deriving DecidableEq

/-- Left-multiplication `M @ P` of a polyhedron by a possibly rectangular
matrix, as dispatched through the numpy hook: per the spec (section 4.2 and
the section 9 open question) the forward image is defined only for square
invertible matrices, via `P @ M⁻¹`; anything else signals failure. -/
def matLeftP {p n : ℕ} (M : Matrix (Fin p) (Fin n) ℚ) (P : Polyhedron n) :
    Option (Polyhedron p) :=
  if h : p = n then
    h ▸ (Polyhedron.lmul (h ▸ M : Mat n) P)
  else none

/-- The controller state after construction: the gain, the noise set, the
memoized disturbance-invariant set, and the tightened state and input
constraint sets (`TubeBasedMPC.__init__`, lines 18-21). -/
structure TubeBasedMPC (n p : ℕ) where
  k : Matrix (Fin p) (Fin n) ℚ
  noise_set : Polyhedron n
  dist_inv : Polyhedron n
  tightened_state_set : Polyhedron n
  tightened_input_set : Polyhedron p

/-- The `state_set` property: returns the tightened state set. -/
def TubeBasedMPC.state_set {n p : ℕ} (c : TubeBasedMPC n p) : Polyhedron n :=
  c.tightened_state_set

/-- The `input_set` property: returns the tightened input set. -/
def TubeBasedMPC.input_set {n p : ℕ} (c : TubeBasedMPC n p) : Polyhedron p :=
  c.tightened_input_set

/-- The `disturbance_invariant_set` property as seen after construction: the
memoized polyhedron (the `@cache` decorator computes it once; the embedding
stores that single value). -/
def TubeBasedMPC.invariant_set {n p : ℕ} (c : TubeBasedMPC n p) :
    Polyhedron n :=
  c.dist_inv

/-- Embedding of `TubeBasedMPC.__init__`: checks that the noise set's
dimension matches the state dimension (raising a dimension error otherwise,
before anything else runs), then computes the disturbance-invariant set and
the tightened constraint sets.  A `.error .dimensionExc` result is produced
without consulting the oracle or the fuel; `.error .calculationExc` absorbs
the non-terminating / singular cases of the set computation. -/
def TubeBasedMPC.init {n p nw : ℕ} (sup : SupOracle n) (supP : SupOracle p)
    (a : Mat n) (b : Matrix (Fin n) (Fin p) ℚ) (k : Matrix (Fin p) (Fin n) ℚ)
    (state_set : Polyhedron n) (input_set : Polyhedron p)
    (noise_set : Polyhedron nw) (alpha hw : ℚ) (fuel1 fuel2 : ℕ) :
    Except MPCExc (TubeBasedMPC n p) :=
  if h : n = nw then
    let W : Polyhedron n := h ▸ noise_set
    match disturbance_invariant_set sup (a - b * k) W alpha hw fuel1 fuel2 with
    | none => .error .calculationExc
    | some F =>
      match matLeftP k F with
      | none => .error .calculationExc
      | some kF =>
        .ok ⟨k, W, F, state_set.sub sup F, input_set.sub supP kF⟩
  else .error .dimensionExc

/-- The horizon-problem oracle: given the measured state, the base MPC
machinery solves the finite-horizon program and yields the optimal nominal
initial state `x0*` and first input `u0*` (the values of `state_ini` and
`input_ini`), or `none` on infeasibility.  The problem itself lives in the
base class, which is not among the provided sources. -/
def HorizonSolver (n p : ℕ) := (Fin n → ℚ) → Option ((Fin n → ℚ) × (Fin p → ℚ))

/-- Embedding of `TubeBasedMPC.__call__` (lines 23-27): store the measured
state, solve the horizon problem, and return
`input_ini.value - k @ (real_time_state - state_ini.value)`. -/
def TubeBasedMPC.call {n p : ℕ} (c : TubeBasedMPC n p)
    (solve : HorizonSolver n p) (real_time_state : Fin n → ℚ) :
    Option (Fin p → ℚ) :=
  (solve real_time_state).map fun st =>
    st.2 - c.k *ᵥ (real_time_state - st.1)

/-! ## The ellipsoidal set representation

Embedding of `Ellipsoid` (src/pympc/set/ellipsoid.py).  The constructor's
`numpy.linalg.cholesky` probe succeeds exactly when the (symmetric) shape
matrix is positive definite; this is modelled by Sylvester's criterion on the
leading principal minors, which is decidable over the rationals. -/

/-- The constructor's positive-definiteness probe (`npl.cholesky(p)` at
src/pympc/set/ellipsoid.py line 13): all leading principal minors are
positive. -/
def posDefCheck {n : ℕ} (p : Mat n) : Bool :=
  decide (∀ k : Fin n,
    0 < detQ (p.submatrix (Fin.castLE k.isLt) (Fin.castLE k.isLt) :
      Matrix (Fin ((k : ℕ) + 1)) (Fin ((k : ℕ) + 1)) ℚ))

/-- An ellipsoid: shape matrix `p`, level `alpha` and center, with the set
being the points x with `(x - center) @ p @ (x - center) <= alpha`.  The
constructor's Cholesky probe is carried as an invariant: a successfully
constructed ellipsoid always has `posDefCheck p`. -/
structure Ellipsoid (n : ℕ) where
  p : Mat n
  alpha : ℚ
  center : Fin n → ℚ
  hchol : posDefCheck p = true

namespace Ellipsoid

/-- Embedding of `Ellipsoid.__init__`: raises a type error when the Cholesky
probe of the shape matrix fails, and otherwise constructs the ellipsoid. -/
def mkE {n : ℕ} (p : Mat n) (alpha : ℚ) (center : Fin n → ℚ) :
    Except SetExc (Ellipsoid n) :=
  if h : posDefCheck p = true then .ok ⟨p, alpha, center, h⟩
  else .error .typeExc

/-- The `contains` predicate for a concrete point:
`(point - center) @ p @ (point - center) - alpha <= 0`. -/
def contains {n : ℕ} (E : Ellipsoid n) (x : Fin n → ℚ) : Prop :=
  (x - E.center) ⬝ᵥ (E.p *ᵥ (x - E.center)) - E.alpha ≤ 0

instance {n : ℕ} (E : Ellipsoid n) (x : Fin n → ℚ) :
    Decidable (E.contains x) := by
  unfold contains; infer_instance

/-- Embedding of `Ellipsoid.subset_eq`: always raises a not-implemented
error (src/pympc/set/ellipsoid.py lines 47-48). -/
def subset_eq {n : ℕ} (_ _ : Ellipsoid n) : Except SetExc Bool :=
  .error .notImplementedExc

/-- The right operand of the ellipsoid's binary `+` and `-`: another
ellipsoid, or a point vector. -/
inductive AddOperand (n : ℕ)
  | set (other : Ellipsoid n)
  | point (v : Fin n → ℚ)

/-- Embedding of `Ellipsoid.__add__` (lines 88-92): a not-implemented error
when the other operand is an ellipsoid, and otherwise a translation that
shifts only the center (the re-run constructor probe passes because the
shape matrix is unchanged). -/
def add {n : ℕ} (E : Ellipsoid n) : AddOperand n → Except SetExc (Ellipsoid n)
  | .set _ => .error .notImplementedExc
  | .point v => .ok ⟨E.p, E.alpha, E.center + v, E.hchol⟩

/-- Embedding of `Ellipsoid.__sub__` (lines 94-98): a not-implemented error
when the other operand is an ellipsoid, else `self + (-v)`. -/
def sub {n : ℕ} (E : Ellipsoid n) : AddOperand n → Except SetExc (Ellipsoid n)
  | .set _ => .error .notImplementedExc
  | .point v => E.add (.point (-v))

/-- Embedding of `Ellipsoid.__matmul__` (lines 100-106) for a square matrix
of matching dimension (the rank and row-count checks of the source are
enforced by the types here): constructs the ellipsoid with shape matrix
`other^T @ p @ other`, the same level, and the unchanged center; the
constructor probe can fail (e.g. for a singular transform), giving the
constructor's type error. -/
def matmulE {n : ℕ} (E : Ellipsoid n) (other : Mat n) :
    Except SetExc (Ellipsoid n) :=
  mkE (other.transpose * E.p * other) E.alpha E.center

/-- Embedding of the `np.matmul` branch of `Ellipsoid.__array_ufunc__`
(lines 108-114): `M @ self` is computed as `self.__matmul__(inv(M))`, and a
singular `M` yields `NotImplemented` (modelled as `none`; numpy then raises
a TypeError at the call site). -/
def array_ufunc_matmul {n : ℕ} (M : Mat n) (E : Ellipsoid n) :
    Option (Except SetExc (Ellipsoid n)) :=
  match qInv M with
  | some Mi => some (E.matmulE Mi)
  | none => none

/-- Embedding of `Ellipsoid.__and__` (lines 130-131): intersection always
raises a not-implemented error. -/
def and {n : ℕ} (_ _ : Ellipsoid n) : Except SetExc (Ellipsoid n) :=
  .error .notImplementedExc

/-- The forward image of an ellipsoid under a matrix: the set of `M @ x` for
x in the ellipsoid (used to state what `M @ self` claims to denote). -/
def image {n : ℕ} (M : Mat n) (E : Ellipsoid n) : Set (Fin n → ℚ) :=
  fun y => ∃ x, E.contains x ∧ M *ᵥ x = y

end Ellipsoid

/-! ## An exact solver oracle for one-dimensional programs

Concrete runs of the algorithms are carried out in state dimension one, where
the linear program `maximize eta * x subject to l_mat * x <= r_vec` can be
solved exactly: the feasible set is an interval whose endpoints are ratios of
offsets to normals.  `oracle1d` below is proved (for the interval-form
polyhedra that arise in the runs) to return the greatest element of the
program's value set, so instantiating the solver oracle with it is faithful
to a correct external solver. -/

/-- The least upper endpoint of a 1-D polyhedron's feasible interval: the
minimum of `r_i / l_i` over the rows with positive normal (a junk value of 0
when no row bounds the set from above). -/
def hiEnd (P : Polyhedron 1) : ℚ :=
  ((((List.finRange P.m).filter fun i => decide (0 < P.l_mat i 0)).map
    fun i => P.r_vec i / P.l_mat i 0).min?).getD 0

/-- The greatest lower endpoint of a 1-D polyhedron's feasible interval: the
maximum of `r_i / l_i` over the rows with negative normal (junk 0 when no
row bounds the set from below). -/
def loEnd (P : Polyhedron 1) : ℚ :=
  ((((List.finRange P.m).filter fun i => decide (P.l_mat i 0 < 0)).map
    fun i => P.r_vec i / P.l_mat i 0).max?).getD 0

/-- The exact 1-D support oracle: the optimum sits at the upper interval
endpoint for a nonnegative objective and at the lower one otherwise. -/
def oracle1d : SupOracle 1 := fun eta P =>
  if 0 ≤ eta 0 then eta 0 * hiEnd P else eta 0 * loEnd P

/-- The symmetric interval `[-c/k, c/k]` in H-representation with rows
`k, -k` and offsets `c, c` — the shape of every polyhedron handled in the
concrete one-dimensional runs. -/
def mkInt (k c : ℚ) : Polyhedron 1 :=
  ⟨2, fun i _ => if (i : ℕ) = 0 then k else -k, fun _ => c⟩

/-! ## Definitions taken from the claims' own words

The following definitions transcribe formulas asserted by the claims (not by
the source); they exist only to be compared against what the code computes. -/

/-- The scalar `alpha*` as worded by claim C2: the maximum over the noise
set's half-spaces of `support(L_i, A_k^s W) / r_i`, with `r_i` the noise
set's own offsets. -/
def alphaStarW {n : ℕ} (sup : SupOracle n) (ai : Mat n) (W : Polyhedron n)
    (s : ℕ) : ℚ :=
  (((List.finRange W.m).map fun i =>
    sup (W.l_mat i) (termC ai W s) / W.rAt i).max?).getD 0

/-- The phase-1 bound as worded by claim C2:
`(sum over i from 0 to s-1 of A_k^i W) / (1 - alpha*)`. -/
def c2_claim_bound {n : ℕ} (sup : SupOracle n) (ai : Mat n) (W : Polyhedron n)
    (s : ℕ) : Polyhedron n :=
  (sumC sup ai W (s - 1)).mul (1 / (1 - alphaStarW sup ai W s))

/-- The final result as worded by claim C3: `A_k^t (F_alpha)` Minkowski-summed
with `Sigma' = sum over i from s to t-1 of A_k^i W`, the phase-2-only sum
(here `t = u + 1` with `u` the exponent of the last phase-2 term, so the sum
runs over exponents `s` to `u`). -/
def c3_claim_result {n : ℕ} (sup : SupOracle n) (ai api : Mat n)
    (W : Polyhedron n) (falpha : Polyhedron n) (s u : ℕ) : Polyhedron n :=
  (falpha.matmul api).add sup (sumRange sup ai W s (u - s))

/-! ## Concrete instances used by witnesses and counterexamples

A one-dimensional instance on which every computation can be evaluated: the
closed-loop matrix is the 1x1 matrix 1/2 (strictly Schur-stable), and the
noise set is the interval [-1, 1]. -/

/-- The concrete closed-loop matrix `A_k = 1/2`. -/
def aK : Mat 1 := fun _ _ => 1 / 2

/-- Its inverse, `A_k⁻¹ = 2`. -/
def aiK : Mat 1 := fun _ _ => 2

/-- The inverse of `A_k^10 = 2^(-10)`, used by the final transform of the
concrete run. -/
def apiK : Mat 1 := fun _ _ => 1024

/-- The concrete noise polyhedron `W = [-1, 1]`. -/
def W1 : Polyhedron 1 := mkInt 1 1

/-- A concrete ellipsoid in dimension one: shape 1, level 1, center 1 — the
interval [0, 2]. -/
def E1 : Ellipsoid 1 :=
  ⟨fun _ _ => 1, 1, fun _ => 1, by with_unfolding_all decide⟩

/-- The concrete 1x1 transform `M = 2`. -/
def M2 : Mat 1 := fun _ _ => 2

/-- The ellipsoid produced by `E1 @ M2`: shape `M2ᵀ * 1 * M2 = 4`, same level
and center. -/
def E10 : Ellipsoid 1 :=
  ⟨fun _ _ => 4, 1, fun _ => 1, by with_unfolding_all decide⟩

/-- The ellipsoid produced by `M2 @ E1 = E1 @ M2⁻¹`: shape `1/4`, same level
and center — the interval [-1, 3]. -/
def E8 : Ellipsoid 1 :=
  ⟨fun _ _ => 1 / 4, 1, fun _ => 1, by with_unfolding_all decide⟩

/-- Positive definiteness of a rational matrix, as the spec means it for the
ellipsoid's shape matrix: every nonzero vector has positive quadratic form. -/
def PosDefQ {n : ℕ} (P : Mat n) : Prop :=
  ∀ x : Fin n → ℚ, x ≠ 0 → 0 < x ⬝ᵥ (P *ᵥ x)

/-- The disturbance-invariant set computed on the concrete one-dimensional
instance (phase 1 stops at exponent 3, phase 2 at exponent 9, so the final
power is `A_k^10`). -/
def Fc : Polyhedron 1 :=
  ((f_alpha_set oracle1d W1
      (powC aK 3, termC aiK W1 3, sumC oracle1d aiK W1 3)).matmul apiK).add
    oracle1d (sumC oracle1d aiK W1 9)

/-- Concrete system matrix `A = 1`. -/
def a1 : Mat 1 := fun _ _ => 1

/-- Concrete input matrix `B = 1`. -/
def b1 : Mat 1 := fun _ _ => 1

/-- Concrete feedback gain `K = 1/2` (so that `A - B K = 1/2 = aK`). -/
def k1 : Mat 1 := fun _ _ => 1 / 2

/-- Concrete original state constraint set, the interval [-10, 10]. -/
def S10 : Polyhedron 1 := mkInt 1 10

/-- Concrete original input constraint set, the interval [-1, 1]. -/
def U1 : Polyhedron 1 := mkInt 1 1

/-- A trivial oracle for dimensions where no support value is ever needed. -/
def oracle0 (n : ℕ) : SupOracle n := fun _ _ => 0

/-- A concrete origin-centered ellipsoid in dimension one. -/
def E0 : Ellipsoid 1 :=
  ⟨fun _ _ => 1, 1, fun _ => 0, by with_unfolding_all decide⟩

/-- The ellipsoid produced by `M2 @ E0 = E0 @ M2⁻¹`: shape `1/4`, center 0. -/
def E0q : Ellipsoid 1 :=
  ⟨fun _ _ => 1 / 4, 1, fun _ => 0, by with_unfolding_all decide⟩

/-- The singular 1x1 zero matrix. -/
def M0 : Mat 1 := fun _ _ => 0

/-! ## Supporting lemmas -/

theorem detQ_eq_det {m : ℕ} (M : Mat m) : detQ M = M.det := by
  induction m with
  | zero => simp [detQ, Matrix.det_isEmpty]
  | succ m ih =>
    rw [Matrix.det_succ_column_zero, Fin.sum_univ_def]
    simp only [detQ, ih]

theorem adjQ_eq_adjugate {m : ℕ} (M : Mat m) : adjQ M = M.adjugate := by
  cases m with
  | zero =>
    have : Subsingleton (Mat 0) := by
      constructor; intro a b; ext i; exact absurd i.isLt (Nat.not_lt_zero _)
    exact Subsingleton.elim _ _
  | succ m =>
    ext i j
    rw [Matrix.adjugate_fin_succ_eq_det_submatrix]
    simp [adjQ, detQ_eq_det]

theorem qInv_some_iff {m : ℕ} {M : Mat m} : (qInv M).isSome ↔ M.det ≠ 0 := by
  rw [qInv, detQ_eq_det]
  by_cases h : M.det = 0 <;> simp [h]

theorem qInv_mul {m : ℕ} {M N : Mat m} (h : qInv M = some N) :
    M * N = 1 ∧ N * M = 1 := by
  rw [qInv] at h
  by_cases hd : detQ M = 0
  · simp [hd] at h
  · simp only [hd, if_false, Option.some.injEq] at h
    rw [detQ_eq_det] at hd
    subst h
    rw [detQ_eq_det, adjQ_eq_adjugate]
    constructor
    · rw [Matrix.mul_smul, Matrix.mul_adjugate, smul_smul,
        inv_mul_cancel₀ hd, one_smul]
    · rw [Matrix.smul_mul, Matrix.adjugate_mul, smul_smul,
        inv_mul_cancel₀ hd, one_smul]

theorem mat1_ext {M N : Mat 1} (h : M 0 0 = N 0 0) : M = N := by
  funext i j
  rw [Subsingleton.elim i 0, Subsingleton.elim j 0]
  exact h

theorem qInv_eq_some {M N : Mat 1} (hd : ¬ detQ M = 0)
    (h : ((detQ M)⁻¹ • adjQ M) 0 0 = N 0 0) : qInv M = some N := by
  rw [qInv, if_neg hd]
  exact congrArg some (mat1_ext h)

theorem qInv_aK : qInv aK = some aiK :=
  qInv_eq_some (by with_unfolding_all decide) (by with_unfolding_all decide)

theorem Ellipsoid.ext1 {n : ℕ} {E F : Ellipsoid n} (hp : E.p = F.p)
    (ha : E.alpha = F.alpha) (hc : E.center = F.center) : E = F := by
  cases E; cases F
  simp only at hp ha hc
  subst hp; subst ha; subst hc
  rfl

/-! Lemmas about the canonical loop iterates. -/

theorem termC_rAt {n : ℕ} (ai : Mat n) (W : Polyhedron n) (j : ℕ) (i : ℕ) :
    (termC ai W j).rAt i = W.rAt i := by
  induction j with
  | zero => rfl
  | succ j ih => exact ih

theorem lmul_termC {n : ℕ} {a_k ai : Mat n} (hai : qInv a_k = some ai)
    (W : Polyhedron n) (j : ℕ) :
    Polyhedron.lmul a_k (termC ai W j) = some (termC ai W (j + 1)) := by
  rw [Polyhedron.lmul, hai, Option.map_some']
  rfl

/-- Forward unrolling of the phase-1 loop: started at the canonical state of
index `k`, with the subset test failing strictly between `k` and `j` and
succeeding at `j`, the loop returns the canonical state of index `j`. -/
theorem phase1_from {n : ℕ} (sup : SupOracle n) {a_k ai : Mat n}
    (hai : qInv a_k = some ai) (W alphaW : Polyhedron n) (j : ℕ)
    (hj : (termC ai W j).subset_eq sup alphaW = true) :
    ∀ f k, k ≤ j →
      (∀ i, k ≤ i → i < j → (termC ai W i).subset_eq sup alphaW = false) →
      j - k < f →
      phase1 sup a_k alphaW f (powC a_k k, termC ai W k, sumC sup ai W k) =
        some (powC a_k j, termC ai W j, sumC sup ai W j) := by
  intro f
  induction f with
  | zero => omega
  | succ f ih =>
    intro k hk hnone hf
    rcases Nat.lt_or_ge k j with hlt | hge
    · have hck := hnone k le_rfl hlt
      rw [phase1, hck]
      simp only [Bool.false_eq_true, if_false]
      rw [lmul_termC hai]
      exact ih (k + 1) hlt (fun i h1 h2 => hnone i (Nat.le_of_succ_le h1) h2)
        (by omega)
    · have hkj : k = j := le_antisymm hk hge
      subst hkj
      rw [phase1, hj]
      rfl

/-- Forward unrolling of the phase-2 loop: the running power is multiplied
before the test, so stopping at exponent `u` returns the power of index
`u + 1` together with the `u`-th term and sum. -/
theorem phase2_from {n : ℕ} (sup : SupOracle n) {a_k ai : Mat n}
    (hai : qInv a_k = some ai) (W cube : Polyhedron n) (u : ℕ)
    (hu : (termC ai W u).subset_eq sup cube = true) :
    ∀ f k, k ≤ u →
      (∀ i, k ≤ i → i < u → (termC ai W i).subset_eq sup cube = false) →
      u - k < f →
      phase2 sup a_k cube f (powC a_k k, termC ai W k, sumC sup ai W k) =
        some (powC a_k (u + 1), termC ai W u, sumC sup ai W u) := by
  intro f
  induction f with
  | zero => omega
  | succ f ih =>
    intro k hk hnone hf
    rcases Nat.lt_or_ge k u with hlt | hge
    · have hck := hnone k le_rfl hlt
      rw [phase2]
      simp only [hck, Bool.false_eq_true, if_false]
      rw [lmul_termC hai]
      exact ih (k + 1) hlt (fun i h1 h2 => hnone i (Nat.le_of_succ_le h1) h2)
        (by omega)
    · have hkj : k = u := le_antisymm hk hge
      subst hkj
      rw [phase2]
      simp only [hu, if_true]
      rfl

/-- The `alp` recomputed by the code divides by the offsets of the final
phase-1 term; since the loop's transforms leave offsets unchanged, these are
the noise set's own offsets, as claim C2 words it. -/
theorem alpha_star_eq_alphaStarW {n : ℕ} (sup : SupOracle n) (ai : Mat n)
    (W : Polyhedron n) (s : ℕ) :
    alpha_star sup W (termC ai W s) = alphaStarW sup ai W s := by
  unfold alpha_star alphaStarW
  simp only [termC_rAt]

/-- Row-0 offset of a Minkowski sum, split into the left operand's offset and
the right operand's support value (used to evaluate the concrete runs one
support query at a time). -/
theorem add_rAt {n : ℕ} (sup : SupOracle n) (P Q : Polyhedron n) (i : ℕ)
    (h : i < P.m) :
    (P.add sup Q).rAt i = P.rAt i + sup (P.l_mat ⟨i, h⟩) Q := by
  unfold Polyhedron.add Polyhedron.rAt
  rw [dif_pos h, dif_pos h]

/-! Exactness of the one-dimensional oracle on the interval-form polyhedra
(two rows `k, -k` with equal offsets `c`) that the concrete runs produce:
`oracle1d` returns the greatest value of the linear program that
`support_fun` poses, so instantiating the solver oracle with it models a
correct external solver. -/

theorem hiEnd_mkInt (k c : ℚ) (hk : 0 < k) : hiEnd (mkInt k c) = c / k := by
  unfold hiEnd mkInt
  rw [show List.finRange 2 = [0, 1] from rfl]
  simp only [List.filter_cons, List.filter_nil]
  norm_num
  rw [if_pos hk, if_neg (not_lt.mpr (le_of_lt hk))]
  simp [List.min?]

theorem loEnd_mkInt (k c : ℚ) (hk : 0 < k) : loEnd (mkInt k c) = -(c / k) := by
  unfold loEnd mkInt
  rw [show List.finRange 2 = [0, 1] from rfl]
  simp only [List.filter_cons, List.filter_nil]
  norm_num
  rw [if_neg (not_lt.mpr (le_of_lt hk)), if_pos hk]
  simp [List.max?, div_neg]

theorem sem_mkInt (k c : ℚ) (x : Fin 1 → ℚ) :
    x ∈ (mkInt k c).sem ↔ k * x 0 ≤ c ∧ -k * x 0 ≤ c := by
  show (∀ i : Fin 2, _) ↔ _
  rw [Fin.forall_fin_two]
  unfold mkInt Matrix.dotProduct
  simp [Fin.sum_univ_one]

theorem oracle1d_mkInt_isGreatest (k c : ℚ) (hk : 0 < k) (hc : 0 ≤ c)
    (eta : Fin 1 → ℚ) :
    IsGreatest (linVals eta (mkInt k c)) (oracle1d eta (mkInt k c)) := by
  have hdot : ∀ x : Fin 1 → ℚ, eta ⬝ᵥ x = eta 0 * x 0 := fun x => by
    unfold Matrix.dotProduct
    rw [Fin.sum_univ_one]
  have base : k * (c / k) = c := by
    rw [mul_comm, div_mul_cancel₀ c (ne_of_gt hk)]
  constructor
  · by_cases h : 0 ≤ eta 0
    · refine ⟨fun _ => c / k, ?_, ?_⟩
      · rw [sem_mkInt]
        refine ⟨le_of_eq base, ?_⟩
        rw [neg_mul, base]
        linarith
      · rw [hdot]
        unfold oracle1d
        rw [if_pos h, hiEnd_mkInt k c hk]
    · refine ⟨fun _ => -(c / k), ?_, ?_⟩
      · rw [sem_mkInt]
        constructor
        · rw [mul_neg, base]
          linarith
        · rw [neg_mul_neg, base]
      · rw [hdot]
        unfold oracle1d
        rw [if_neg h, loEnd_mkInt k c hk]
  · rintro q ⟨x, hx, rfl⟩
    rw [sem_mkInt] at hx
    have h1 : x 0 ≤ c / k := by
      rw [le_div_iff₀ hk]
      linarith [hx.1]
    have h2 : -(c / k) ≤ x 0 := by
      rw [← neg_div, div_le_iff₀ hk]
      linarith [hx.2]
    rw [hdot]
    unfold oracle1d
    by_cases h : 0 ≤ eta 0
    · rw [if_pos h, hiEnd_mkInt k c hk]
      exact mul_le_mul_of_nonneg_left h1 h
    · rw [if_neg h, loEnd_mkInt k c hk]
      exact mul_le_mul_of_nonpos_left h2 (le_of_lt (not_le.mp h))

/-! Lemmas on quadratic forms and a separation argument: two ellipsoids with
the same positive-definite quadratic form, the same nonnegative level and
different centers are different sets. -/

theorem quad_transpose {n : ℕ} (M P : Mat n) (z : Fin n → ℚ) :
    z ⬝ᵥ ((M.transpose * P * M) *ᵥ z) = (M *ᵥ z) ⬝ᵥ (P *ᵥ (M *ᵥ z)) := by
  rw [← Matrix.mulVec_mulVec, ← Matrix.mulVec_mulVec,
    Matrix.dotProduct_mulVec, Matrix.vecMul_transpose]

theorem quad_smul {n : ℕ} (M P : Mat n) (t : ℚ) (z : Fin n → ℚ) :
    (M *ᵥ (t • z)) ⬝ᵥ (P *ᵥ (M *ᵥ (t • z))) =
      t ^ 2 * ((M *ᵥ z) ⬝ᵥ (P *ᵥ (M *ᵥ z))) := by
  rw [Matrix.mulVec_smul, Matrix.mulVec_smul, Matrix.smul_dotProduct,
    Matrix.dotProduct_smul, smul_eq_mul, smul_eq_mul]
  ring

theorem exists_nat_sq_between (beta : ℚ) (hb : 0 ≤ beta) :
    ∃ t : ℕ, (t : ℚ) ^ 2 ≤ beta ∧ beta < ((t : ℚ) + 1) ^ 2 := by
  have hnn : (0 : ℤ) ≤ ⌊beta⌋ := Int.floor_nonneg.mpr hb
  have hcast : ((⌊beta⌋.toNat : ℚ)) = ((⌊beta⌋ : ℤ) : ℚ) := by
    norm_cast
    exact Int.toNat_of_nonneg hnn
  refine ⟨Nat.sqrt ⌊beta⌋.toNat, ?_, ?_⟩
  · have h1 : Nat.sqrt ⌊beta⌋.toNat ^ 2 ≤ ⌊beta⌋.toNat := Nat.sqrt_le' _
    have h2 : ((⌊beta⌋.toNat : ℚ)) ≤ beta := by
      rw [hcast]
      exact Int.floor_le beta
    calc ((Nat.sqrt ⌊beta⌋.toNat : ℚ)) ^ 2 ≤ ((⌊beta⌋.toNat : ℚ)) := by
          exact_mod_cast h1
      _ ≤ beta := h2
  · have h1 : ⌊beta⌋.toNat + 1 ≤ (Nat.sqrt ⌊beta⌋.toNat + 1) ^ 2 := by
      simpa [Nat.succ_eq_add_one] using
        Nat.succ_le_of_lt (Nat.lt_succ_sqrt' ⌊beta⌋.toNat)
    have h2 : beta < (⌊beta⌋.toNat : ℚ) + 1 := by
      rw [hcast]
      exact Int.lt_floor_add_one beta
    calc beta < (⌊beta⌋.toNat : ℚ) + 1 := h2
      _ ≤ ((Nat.sqrt ⌊beta⌋.toNat : ℚ) + 1) ^ 2 := by exact_mod_cast h1

/-- Separation: for a quadratic functional `g` that is homogeneous of degree
two and positive on the difference of the centers, the sublevel sets of level
`alpha >= 0` around two different centers differ at some point. -/
theorem quad_sep {n : ℕ} (g : (Fin n → ℚ) → ℚ)
    (hg : ∀ (t : ℚ) z, g (t • z) = t ^ 2 * g z)
    (c₁ c₂ : Fin n → ℚ) (alpha : ℚ) (ha : 0 ≤ alpha)
    (hpos : 0 < g (c₁ - c₂)) :
    ∃ y, g (y - c₁) ≤ alpha ∧ ¬ g (y - c₂) ≤ alpha := by
  obtain ⟨t, ht1, ht2⟩ :=
    exists_nat_sq_between (alpha / g (c₁ - c₂)) (by positivity)
  refine ⟨c₁ + (t : ℚ) • (c₁ - c₂), ?_, ?_⟩
  · have hy : c₁ + (t : ℚ) • (c₁ - c₂) - c₁ = (t : ℚ) • (c₁ - c₂) := by
      abel
    rw [hy, hg]
    calc (t : ℚ) ^ 2 * g (c₁ - c₂)
        ≤ alpha / g (c₁ - c₂) * g (c₁ - c₂) :=
          mul_le_mul_of_nonneg_right ht1 (le_of_lt hpos)
      _ = alpha := div_mul_cancel₀ alpha (ne_of_gt hpos)
  · have hy : c₁ + (t : ℚ) • (c₁ - c₂) - c₂ = ((t : ℚ) + 1) • (c₁ - c₂) := by
      rw [add_smul, one_smul]
      abel
    rw [hy, hg, not_le]
    calc alpha = alpha / g (c₁ - c₂) * g (c₁ - c₂) :=
        (div_mul_cancel₀ alpha (ne_of_gt hpos)).symm
      _ < ((t : ℚ) + 1) ^ 2 * g (c₁ - c₂) :=
        mul_lt_mul_of_pos_right ht2 hpos

/-- The inverse of the concrete 10-th matrix power, used by witnesses. -/
theorem qInv_powC_aK : qInv (powC aK 10) = some apiK :=
  qInv_eq_some (by with_unfolding_all decide) (by with_unfolding_all decide)

/-- The inverse of the concrete gain `k1`. -/
theorem qInv_k1 : qInv k1 = some aiK :=
  qInv_eq_some (by with_unfolding_all decide) (by with_unfolding_all decide)

/-! ## Claim C2 -/

/-- Claim C2, amended: in phase 1, with `s` the first exponent for which
`A_k^s W` is a subset of `alpha * W`, the phase-1 bound computed is
`F_alpha = (sum over i from 0 to s — inclusive — of A_k^i W) / (1 - alpha*)`,
where `alpha* = max_i support(L_i, A_k^s W) / r_i` over the noise set `W`'s
own half-spaces `(L_i, r_i)`.  (The accumulated sum includes the final term
`A_k^s W`; the original claim's upper limit `s - 1` is refuted by
`C2_counterexample`.) -/
theorem C2_phase1_bound {n : ℕ} (sup : SupOracle n) {a_k ai : Mat n}
    (W : Polyhedron n) (alpha : ℚ) (hai : qInv a_k = some ai) (s f : ℕ)
    (hfirst : ∀ i, i < s → (termC ai W i).subset_eq sup (W.mul alpha) = false)
    (hs : (termC ai W s).subset_eq sup (W.mul alpha) = true)
    (hf : s < f) :
    phase1 sup a_k (W.mul alpha) f (1, W, W)
      = some (powC a_k s, termC ai W s, sumC sup ai W s)
    ∧ f_alpha_set sup W (powC a_k s, termC ai W s, sumC sup ai W s)
      = (sumC sup ai W s).mul (1 / (1 - alphaStarW sup ai W s)) := by
  constructor
  · exact phase1_from sup hai W (W.mul alpha) s hs f 0 (Nat.zero_le s)
      (fun i _ h2 => hfirst i h2) (by omega)
  · unfold f_alpha_set
    rw [alpha_star_eq_alphaStarW]

/-- Witness for C2 on the concrete instance `A_k = 1/2`, `W = [-1, 1]`,
`alpha = 1/5`: the first exponent with `A_k^s W ⊆ alpha W` is `s = 3`. -/
theorem C2_phase1_bound_witness :
    phase1 oracle1d aK (W1.mul (1 / 5)) 5 (1, W1, W1)
      = some (powC aK 3, termC aiK W1 3, sumC oracle1d aiK W1 3)
    ∧ f_alpha_set oracle1d W1 (powC aK 3, termC aiK W1 3, sumC oracle1d aiK W1 3)
      = (sumC oracle1d aiK W1 3).mul (1 / (1 - alphaStarW oracle1d aiK W1 3)) :=
  C2_phase1_bound oracle1d W1 (1 / 5) qInv_aK 3 5
    (by with_unfolding_all decide) (by with_unfolding_all decide) (by omega)

/-- Counterexample to claim C2 as stated: on the concrete instance the first
exponent is `s = 3`, the code's phase-1 bound has offset `15/7`, but the
claim's formula `(sum over i from 0 to s-1 of A_k^i W) / (1 - alpha*)` has
offset `2` — the code's accumulated sum also contains the term `A_k^s W`. -/
theorem C2_counterexample :
    (∀ i, i < 3 → (termC aiK W1 i).subset_eq oracle1d (W1.mul (1 / 5)) = false)
    ∧ (termC aiK W1 3).subset_eq oracle1d (W1.mul (1 / 5)) = true
    ∧ phase1 oracle1d aK (W1.mul (1 / 5)) 5 (1, W1, W1)
        = some (powC aK 3, termC aiK W1 3, sumC oracle1d aiK W1 3)
    ∧ (f_alpha_set oracle1d W1
        (powC aK 3, termC aiK W1 3, sumC oracle1d aiK W1 3)).rAt 0 = 15 / 7
    ∧ (c2_claim_bound oracle1d aiK W1 3).rAt 0 = 2
    ∧ (15 / 7 : ℚ) ≠ 2 := by
  refine ⟨by with_unfolding_all decide, by with_unfolding_all decide, ?_,
    by with_unfolding_all decide, by with_unfolding_all decide,
    by norm_num⟩
  exact phase1_from oracle1d qInv_aK W1 (W1.mul (1 / 5)) 3
    (by with_unfolding_all decide) 5 0 (by omega)
    (fun i _ h2 => by interval_cases i <;> with_unfolding_all decide)
    (by omega)

/-! ## Claim C3 -/

/-- Claim C3, amended: the computation returns
`F = A_k^t (F_alpha)` Minkowski-summed with `Sigma`, where `t` is the power
reached at the end of phase 2 (the phase stopping when the current
noise-image term is contained in the origin-centred hypercube) and
`Sigma = sum over i from 0 to t-1 of A_k^i W` — the sum accumulated in phase 2
is initialized from the phase-1 sum, so it contains all terms from exponent 0,
not only the phase-2 exponents `s..t-1` (the original wording is refuted by
`C3_counterexample`).  Here `u` is the exponent of the last phase-2 term, so
`t = u + 1`, and `api` is the inverse of `A_k^t` through which the final
left-multiplication is computed. -/
theorem C3_result {n : ℕ} (sup : SupOracle n) {a_k ai : Mat n}
    (W : Polyhedron n) (alpha hw : ℚ) (hai : qInv a_k = some ai)
    (s u f1 f2 : ℕ)
    (h1first : ∀ i, i < s → (termC ai W i).subset_eq sup (W.mul alpha) = false)
    (h1s : (termC ai W s).subset_eq sup (W.mul alpha) = true)
    (hf1 : s < f1)
    (h2first : ∀ i, s ≤ i → i < u →
      (termC ai W i).subset_eq sup (unit_cube n hw) = false)
    (h2u : (termC ai W u).subset_eq sup (unit_cube n hw) = true)
    (hsu : s ≤ u) (hf2 : u - s < f2)
    {api : Mat n} (hapi : qInv (powC a_k (u + 1)) = some api) :
    disturbance_invariant_set sup a_k W alpha hw f1 f2
      = some (((f_alpha_set sup W
          (powC a_k s, termC ai W s, sumC sup ai W s)).matmul api).add sup
          (sumC sup ai W u)) := by
  have hp1 := phase1_from sup hai W (W.mul alpha) s h1s f1 0 (Nat.zero_le s)
    (fun i _ h2 => h1first i h2) (by omega)
  have hp2 := phase2_from sup hai W (unit_cube n hw) u h2u f2 s hsu h2first
    (by omega)
  have hp1x : phase1 sup a_k (W.mul alpha) f1 (1, W, W)
      = some (powC a_k s, termC ai W s, sumC sup ai W s) := hp1
  unfold disturbance_invariant_set
  rw [hp1x]
  show (match phase2 sup a_k (unit_cube n hw) f2
      (powC a_k s, termC ai W s, sumC sup ai W s) with
    | none => none
    | some (pw2, _, sm2) =>
      match Polyhedron.lmul pw2 (f_alpha_set sup W
          (powC a_k s, termC ai W s, sumC sup ai W s)) with
      | none => none
      | some g => some (g.add sup sm2)) = _
  rw [hp2]
  show (match Polyhedron.lmul (powC a_k (u + 1)) (f_alpha_set sup W
      (powC a_k s, termC ai W s, sumC sup ai W s)) with
    | none => none
    | some g => some (g.add sup (sumC sup ai W u))) = _
  rw [Polyhedron.lmul, hapi, Option.map_some']

/-- Witness for C3 on the concrete instance: phase 1 stops at exponent 3,
phase 2 at exponent 9, so `t = 10`. -/
theorem C3_result_witness :
    disturbance_invariant_set oracle1d aK W1 (1 / 5) (1 / 500) 5 8
      = some (((f_alpha_set oracle1d W1
          (powC aK 3, termC aiK W1 3, sumC oracle1d aiK W1 3)).matmul apiK).add
          oracle1d (sumC oracle1d aiK W1 9)) :=
  C3_result oracle1d W1 (1 / 5) (1 / 500) qInv_aK 3 9 5 8
    (by with_unfolding_all decide) (by with_unfolding_all decide) (by omega)
    (fun i h1 h2 => by interval_cases i <;> with_unfolding_all decide)
    (by with_unfolding_all decide) (by omega) (by omega) qInv_powC_aK

/-- The concrete run itself, for reuse by other concrete statements. -/
theorem dis_run :
    disturbance_invariant_set oracle1d aK W1 (1 / 5) (1 / 500) 5 8 = some Fc := by
  have hp1 := phase1_from oracle1d qInv_aK W1 (W1.mul (1 / 5)) 3
    (by with_unfolding_all decide) 5 0 (by omega)
    (fun i _ h2 => by interval_cases i <;> with_unfolding_all decide) (by omega)
  have hp2 := phase2_from oracle1d qInv_aK W1 (unit_cube 1 (1 / 500)) 9
    (by with_unfolding_all decide) 8 3 (by omega)
    (fun i h1 h2 => by interval_cases i <;> with_unfolding_all decide) (by omega)
  have hp1x : phase1 oracle1d aK (W1.mul (1 / 5)) 5 (1, W1, W1)
      = some (powC aK 3, termC aiK W1 3, sumC oracle1d aiK W1 3) := hp1
  have hp2x : phase2 oracle1d aK (unit_cube 1 (1 / 500)) 8
      (powC aK 3, termC aiK W1 3, sumC oracle1d aiK W1 3)
      = some (powC aK 10, termC aiK W1 9, sumC oracle1d aiK W1 9) := hp2
  unfold disturbance_invariant_set
  rw [hp1x]
  simp only [hp2x, Polyhedron.lmul, qInv_powC_aK, Option.map_some']
  rfl

/-- Counterexample to claim C3 as stated: on the concrete instance the
returned set has offset `14337/7` while the claim's
`A_k^t (F_alpha) + (sum over i from s to t-1 of A_k^i W)` has offset
`1793/7`: the code's accumulated sum also contains the phase-1 terms of
exponents `0..s-1` (and the term of exponent `s`). -/
theorem C3_counterexample :
    disturbance_invariant_set oracle1d aK W1 (1 / 5) (1 / 500) 5 8 = some Fc
    ∧ Fc.rAt 0 = 14337 / 7
    ∧ (c3_claim_result oracle1d aiK apiK W1
        (f_alpha_set oracle1d W1
          (powC aK 3, termC aiK W1 3, sumC oracle1d aiK W1 3)) 3 9).rAt 0
        = 1793 / 7
    ∧ (14337 / 7 : ℚ) ≠ 1793 / 7 := by
  have hm : (0 : ℕ) < ((f_alpha_set oracle1d W1
      (powC aK 3, termC aiK W1 3, sumC oracle1d aiK W1 3)).matmul apiK).m := by
    with_unfolding_all decide
  refine ⟨dis_run, ?_, ?_, by norm_num⟩
  · show (((f_alpha_set oracle1d W1
        (powC aK 3, termC aiK W1 3, sumC oracle1d aiK W1 3)).matmul apiK).add
        oracle1d (sumC oracle1d aiK W1 9)).rAt 0 = 14337 / 7
    rw [add_rAt oracle1d _ _ 0 hm]
    have e2 : ((f_alpha_set oracle1d W1
        (powC aK 3, termC aiK W1 3, sumC oracle1d aiK W1 3)).matmul apiK).rAt 0
        = 15 / 7 := by with_unfolding_all decide
    have e3 : oracle1d (((f_alpha_set oracle1d W1
        (powC aK 3, termC aiK W1 3, sumC oracle1d aiK W1 3)).matmul apiK).l_mat
          ⟨0, by with_unfolding_all decide⟩) (sumC oracle1d aiK W1 9)
        = 2046 := by
      with_unfolding_all decide
    rw [e2, e3]
    norm_num
  · show (((f_alpha_set oracle1d W1
        (powC aK 3, termC aiK W1 3, sumC oracle1d aiK W1 3)).matmul apiK).add
        oracle1d (sumRange oracle1d aiK W1 3 6)).rAt 0 = 1793 / 7
    rw [add_rAt oracle1d _ _ 0 hm]
    have e2 : ((f_alpha_set oracle1d W1
        (powC aK 3, termC aiK W1 3, sumC oracle1d aiK W1 3)).matmul apiK).rAt 0
        = 15 / 7 := by with_unfolding_all decide
    have e3 : oracle1d (((f_alpha_set oracle1d W1
        (powC aK 3, termC aiK W1 3, sumC oracle1d aiK W1 3)).matmul apiK).l_mat
          ⟨0, by with_unfolding_all decide⟩) (sumRange oracle1d aiK W1 3 6)
        = 254 := by
      with_unfolding_all decide
    rw [e2, e3]
    norm_num

/-! ## Claim C4 -/

/-- Claim C4: whenever the horizon optimization is feasible with optimal
nominal initial state `x0*` and first input `u0*`, the controller call
returns `u0* - K (x_real - x0*)`. -/
theorem C4_control_law {n p : ℕ} (c : TubeBasedMPC n p)
    (solve : HorizonSolver n p) (x_real x0 : Fin n → ℚ) (u0 : Fin p → ℚ)
    (h : solve x_real = some (x0, u0)) :
    c.call solve x_real = some (u0 - c.k *ᵥ (x_real - x0)) := by
  unfold TubeBasedMPC.call
  rw [h, Option.map_some']

/-- Witness for C4 at a concrete controller, solver and measured state. -/
theorem C4_control_law_witness :
    TubeBasedMPC.call ⟨k1, W1, W1, S10, U1⟩
      (fun _ => some (fun _ => 1, fun _ => 2)) (fun _ => 3)
      = some ((fun _ => 2) - k1 *ᵥ ((fun _ => 3) - fun _ => 1)) :=
  C4_control_law ⟨k1, W1, W1, S10, U1⟩
    (fun _ => some (fun _ => 1, fun _ => 2)) (fun _ => 3)
    (fun _ => 1) (fun _ => 2) rfl

/-! ## Claim C5 -/

/-- Claim C5: when construction succeeds, the controller holds the tightened
state set `state_set - F` (Pontryagin difference with the
disturbance-invariant set `F`) and the tightened input set
`input_set - (K @ F)`, and the `state_set` / `input_set` /
`disturbance_invariant_set` accessors return exactly these stored values (the
embedding is pure, so the values computed at construction are immutable). -/
theorem C5_tightened_sets {n p nw : ℕ} (sup : SupOracle n) (supP : SupOracle p)
    (a : Mat n) (b : Matrix (Fin n) (Fin p) ℚ) (k : Matrix (Fin p) (Fin n) ℚ)
    (state_set0 : Polyhedron n) (input_set0 : Polyhedron p)
    (noise_set : Polyhedron nw) (alpha hw : ℚ) (f1 f2 : ℕ)
    (h : n = nw) (F : Polyhedron n)
    (hF : disturbance_invariant_set sup (a - b * k) (h ▸ noise_set) alpha hw
      f1 f2 = some F)
    (kF : Polyhedron p) (hkF : matLeftP k F = some kF) :
    ∃ c : TubeBasedMPC n p,
      TubeBasedMPC.init sup supP a b k state_set0 input_set0 noise_set
        alpha hw f1 f2 = .ok c
      ∧ c.state_set = state_set0.sub sup F
      ∧ c.input_set = input_set0.sub supP kF
      ∧ c.invariant_set = F := by
  refine ⟨⟨k, h ▸ noise_set, F, state_set0.sub sup F, input_set0.sub supP kF⟩,
    ?_, rfl, rfl, rfl⟩
  unfold TubeBasedMPC.init
  rw [dif_pos h]
  simp only [hF, hkF]

/-- Witness for C5 on the concrete instance (`A = 1`, `B = 1`, `K = 1/2`, so
`A - B K = 1/2`): the tightened sets are the original intervals Pontryagin-
minus the computed invariant set and its image under `K`. -/
theorem C5_tightened_sets_witness :
    ∃ c : TubeBasedMPC 1 1,
      TubeBasedMPC.init oracle1d oracle1d a1 b1 k1 S10 U1 W1 (1 / 5) (1 / 500)
        5 8 = .ok c
      ∧ c.state_set = S10.sub oracle1d Fc
      ∧ c.input_set = U1.sub oracle1d (Fc.matmul aiK)
      ∧ c.invariant_set = Fc := by
  have hab : a1 - b1 * k1 = aK := mat1_ext (by with_unfolding_all decide)
  have hF : disturbance_invariant_set oracle1d (a1 - b1 * k1)
      ((rfl : (1 : ℕ) = 1) ▸ W1) (1 / 5) (1 / 500) 5 8 = some Fc := by
    rw [hab]
    exact dis_run
  have hkF : matLeftP k1 Fc = some (Fc.matmul aiK) := by
    unfold matLeftP
    rw [dif_pos rfl]
    rw [Polyhedron.lmul, qInv_k1, Option.map_some']
  exact C5_tightened_sets oracle1d oracle1d a1 b1 k1 S10 U1 W1 (1 / 5)
    (1 / 500) 5 8 rfl Fc hF (Fc.matmul aiK) hkF

/-! ## Claim C6 -/

/-- Claim C6: for a noise set whose dimension differs from the state
dimension, construction fails immediately with a dimension error; the result
is the error for every support oracle profile and every fuel, i.e. before the
invariant-set solver or any solve is consulted. -/
theorem C6_dimension_mismatch {n p nw : ℕ} (hne : n ≠ nw)
    (sup : SupOracle n) (supP : SupOracle p) (a : Mat n)
    (b : Matrix (Fin n) (Fin p) ℚ) (k : Matrix (Fin p) (Fin n) ℚ)
    (state_set0 : Polyhedron n) (input_set0 : Polyhedron p)
    (noise_set : Polyhedron nw) (alpha hw : ℚ) (f1 f2 : ℕ) :
    TubeBasedMPC.init sup supP a b k state_set0 input_set0 noise_set
      alpha hw f1 f2 = .error .dimensionExc := by
  unfold TubeBasedMPC.init
  rw [dif_neg hne]

/-- Witness for C6: a 3-dimensional noise set against a 2-dimensional state
fails with the dimension error (for arbitrary oracles and fuels). -/
theorem C6_dimension_mismatch_witness :
    TubeBasedMPC.init (oracle0 2) (oracle0 1) (1 : Mat 2) (fun _ _ => 0)
      (fun _ _ => 0) (unit_cube 2 10) (unit_cube 1 1) (unit_cube 3 1)
      (1 / 5) (1 / 500) 5 8 = .error .dimensionExc :=
  C6_dimension_mismatch (by omega) (oracle0 2) (oracle0 1) (1 : Mat 2)
    (fun _ _ => 0) (fun _ _ => 0) (unit_cube 2 10) (unit_cube 1 1)
    (unit_cube 3 1) (1 / 5) (1 / 500) 5 8

/-! ## Claim C7 -/

/-- Claim C7: `support_fun(eta, s)` raises a type error when `eta` is not
1-D, a dimension error when it is 1-D but its length differs from the set's
dimension, and otherwise returns the optimal value of the program
"maximize eta @ x subject to x in s" (when the program has an optimum and the
solver oracle is exact at this query, the returned value is the greatest
element of the program's value set). -/
theorem C7_support_fun {n : ℕ} (sup : SupOracle n) (eta : NDArray)
    (s : Polyhedron n) :
    (eta.ndim ≠ 1 → support_fun sup eta s = .error .typeExc)
    ∧ (eta.ndim = 1 → eta.size ≠ n →
        support_fun sup eta s = .error .dimensionExc)
    ∧ (eta.ndim = 1 → eta.size = n →
        IsGreatest (linVals (eta.vec n) s) (sup (eta.vec n) s) →
        ∃ v, support_fun sup eta s = .ok v
          ∧ IsGreatest (linVals (eta.vec n) s) v) := by
  refine ⟨?_, ?_, ?_⟩
  · intro h
    unfold support_fun
    rw [if_pos h]
  · intro h1 h2
    unfold support_fun Polyhedron.n_dim
    rw [if_neg (fun hh => hh h1), if_pos h2]
  · intro h1 h2 hg
    refine ⟨sup (eta.vec n) s, ?_, hg⟩
    unfold support_fun Polyhedron.n_dim
    rw [if_neg (fun hh => hh h1), if_neg (fun hh => hh h2)]

/-- Witness for C7: a 2-D array raises the type error, a 1-D array of the
wrong length raises the dimension error, and a valid direction on the
interval `[-1, 1]` returns its support value `1`, the program's maximum. -/
theorem C7_support_fun_witness :
    support_fun oracle1d ⟨[1, 1], [1]⟩ W1 = .error .typeExc
    ∧ support_fun oracle1d ⟨[2], [1, 1]⟩ W1 = .error .dimensionExc
    ∧ ∃ v, support_fun oracle1d ⟨[1], [1]⟩ W1 = .ok v
        ∧ IsGreatest (linVals (NDArray.vec ⟨[1], [1]⟩ 1) W1) v := by
  refine ⟨(C7_support_fun oracle1d ⟨[1, 1], [1]⟩ W1).1 (by decide),
    (C7_support_fun oracle1d ⟨[2], [1, 1]⟩ W1).2.1 rfl (by decide),
    (C7_support_fun oracle1d ⟨[1], [1]⟩ W1).2.2 rfl rfl ?_⟩
  have h := oracle1d_mkInt_isGreatest 1 1 (by norm_num) (by norm_num)
    (NDArray.vec ⟨[1], [1]⟩ 1)
  exact h

/-! ## Claim C8 -/

/-- Inversion of a successful ellipsoid transform: `E @ M` carries the shape
matrix `Mᵀ p M`, the same level, and the unchanged center. -/
theorem matmulE_ok {n : ℕ} {E : Ellipsoid n} {M : Mat n} {E' : Ellipsoid n}
    (h : E.matmulE M = .ok E') :
    E'.p = M.transpose * E.p * M ∧ E'.alpha = E.alpha
      ∧ E'.center = E.center := by
  unfold Ellipsoid.matmulE Ellipsoid.mkE at h
  split at h
  · cases h
    exact ⟨rfl, rfl, rfl⟩
  · cases h

/-- Claim C8, amended: for an ellipsoid, `M @ S` is computed as `S @ M⁻¹`
when `M` is invertible and fails with the non-implemented/undefined signal
when `M` is singular; when `S` is centred at the origin the computed set is
exactly the forward image of `S` under `M` (for a nonzero center it is not —
see `C8_counterexample`). -/
theorem C8_forward_image {n : ℕ} (M : Mat n) (E : Ellipsoid n) :
    (∀ Mi, qInv M = some Mi →
      Ellipsoid.array_ufunc_matmul M E = some (E.matmulE Mi))
    ∧ (qInv M = none → Ellipsoid.array_ufunc_matmul M E = none)
    ∧ (∀ Mi E', qInv M = some Mi → E.center = 0 → E.matmulE Mi = .ok E' →
        ∀ y, E'.contains y ↔ y ∈ Ellipsoid.image M E) := by
  refine ⟨?_, ?_, ?_⟩
  · intro Mi h
    unfold Ellipsoid.array_ufunc_matmul
    rw [h]
  · intro h
    unfold Ellipsoid.array_ufunc_matmul
    rw [h]
  · intro Mi E' hMi hc hok y
    obtain ⟨hp, ha, hcen⟩ := matmulE_ok hok
    obtain ⟨hMMi, hMiM⟩ := qInv_mul hMi
    have hquad : ∀ z : Fin n → ℚ,
        z ⬝ᵥ (E'.p *ᵥ z) = (Mi *ᵥ z) ⬝ᵥ (E.p *ᵥ (Mi *ᵥ z)) := fun z => by
      rw [hp]
      exact quad_transpose Mi E.p z
    constructor
    · intro hy
      refine ⟨Mi *ᵥ y, ?_, ?_⟩
      · unfold Ellipsoid.contains at hy ⊢
        rw [hcen, hc, sub_zero, ha, hquad y] at hy
        rw [hc, sub_zero]
        exact hy
      · rw [Matrix.mulVec_mulVec, hMMi, Matrix.one_mulVec]
    · rintro ⟨x, hx, rfl⟩
      unfold Ellipsoid.contains at hx ⊢
      rw [hcen, hc, sub_zero, ha, hquad]
      rw [hc, sub_zero] at hx
      rw [Matrix.mulVec_mulVec, hMiM, Matrix.one_mulVec]
      exact hx

/-- Witness for C8: the concrete transform `M = 2` on the origin-centred unit
disc `E0`: the hook computes `E0 @ (1/2)`, whose membership agrees with the
forward image; the singular matrix `0` yields the non-implemented signal. -/
theorem C8_forward_image_witness :
    Ellipsoid.array_ufunc_matmul M2 E0 = some (E0.matmulE aK)
    ∧ Ellipsoid.array_ufunc_matmul M0 E0 = none
    ∧ ∀ y, E0q.contains y ↔ y ∈ Ellipsoid.image M2 E0 := by
  have hq : qInv M2 = some aK :=
    qInv_eq_some (by with_unfolding_all decide) (by with_unfolding_all decide)
  have hq0 : qInv M0 = none := by
    rw [qInv, if_pos (by with_unfolding_all decide)]
  have hok : E0.matmulE aK = .ok E0q := by
    unfold Ellipsoid.matmulE Ellipsoid.mkE
    rw [dif_pos (by with_unfolding_all decide)]
    exact congrArg Except.ok
      (Ellipsoid.ext1 (mat1_ext (by with_unfolding_all decide)) rfl rfl)
  refine ⟨(C8_forward_image M2 E0).1 aK hq, (C8_forward_image M0 E0).2.1 hq0,
    (C8_forward_image M2 E0).2.2 aK E0q hq ?_ hok⟩
  funext i
  rfl

/-- Counterexample to claim C8 as stated ("M @ S denotes the forward image of
S under M"): for the ellipsoid `E1` centred at 1 and `M = 2`, the computed
set `M @ E1 = E1 @ (1/2)` contains the point `-1`, which is not in the
forward image `{M x : x in E1}` — the center is left unchanged instead of
being mapped. -/
theorem C8_counterexample :
    Ellipsoid.array_ufunc_matmul M2 E1 = some (.ok E8)
    ∧ E8.contains (fun _ => -1)
    ∧ ¬ ((fun _ => -1) ∈ Ellipsoid.image M2 E1) := by
  have hq : qInv M2 = some aK :=
    qInv_eq_some (by with_unfolding_all decide) (by with_unfolding_all decide)
  have hok : E1.matmulE aK = .ok E8 := by
    unfold Ellipsoid.matmulE Ellipsoid.mkE
    rw [dif_pos (by with_unfolding_all decide)]
    exact congrArg Except.ok
      (Ellipsoid.ext1 (mat1_ext (by with_unfolding_all decide)) rfl rfl)
  refine ⟨?_, by with_unfolding_all decide, ?_⟩
  · simp only [Ellipsoid.array_ufunc_matmul, hq, hok]
  · rintro ⟨x, hx, hMx⟩
    have h0 : (M2 *ᵥ x) 0 = 2 * x 0 := by
      unfold M2 Matrix.mulVec Matrix.dotProduct
      rw [Fin.sum_univ_one]
    have hx0 : x 0 = -(1 / 2) := by
      have := congrFun hMx 0
      rw [h0] at this
      linarith
    unfold Ellipsoid.contains E1 at hx
    simp only [Matrix.dotProduct, Matrix.mulVec, Fin.sum_univ_one,
      Pi.sub_apply] at hx
    rw [hx0] at hx
    norm_num at hx

/-! ## Claim C9 -/

/-- Claim C9: on the ellipsoidal representation, the Minkowski sum of two
ellipsoids, the Pontryagin difference of two ellipsoids, subset testing and
intersection all raise a not-implemented error, while translation by a point
vector succeeds, shifting only the center. -/
theorem C9_ellipsoid_not_implemented {n : ℕ} (E F : Ellipsoid n)
    (v : Fin n → ℚ) :
    E.add (.set F) = .error .notImplementedExc
    ∧ E.sub (.set F) = .error .notImplementedExc
    ∧ E.subset_eq F = .error .notImplementedExc
    ∧ E.and F = .error .notImplementedExc
    ∧ E.add (.point v) = .ok ⟨E.p, E.alpha, E.center + v, E.hchol⟩ :=
  ⟨rfl, rfl, rfl, rfl, rfl⟩

/-! ## Claim C10 -/

/-- Claim C10, amended: `E @ M` returns the ellipsoid with shape matrix
`Mᵀ P M`, the same level and the unchanged center; the center is never mapped
through `M`, so whenever `M` is invertible, `P` is positive definite, the
level is nonnegative and `M` does not fix the center (`M c ≠ c`), the
returned set is not the exact pre-image of `E` under `M`.  (The original
claim's condition "whenever c is nonzero" is refuted by
`C10_counterexample`, where `M` is the identity.) -/
theorem C10_coordinate_transform {n : ℕ} (E : Ellipsoid n) (M Mi : Mat n)
    (E' : Ellipsoid n) (hMi : qInv M = some Mi) (hpd : PosDefQ E.p)
    (ha : 0 ≤ E.alpha) (hc : M *ᵥ E.center ≠ E.center)
    (hok : E.matmulE M = .ok E') :
    (E'.p = M.transpose * E.p * M ∧ E'.alpha = E.alpha
      ∧ E'.center = E.center)
    ∧ ¬ (∀ y, E'.contains y ↔ E.contains (M *ᵥ y)) := by
  obtain ⟨hp, hal, hcen⟩ := matmulE_ok hok
  refine ⟨⟨hp, hal, hcen⟩, ?_⟩
  intro hiff
  obtain ⟨hMMi, hMiM⟩ := qInv_mul hMi
  have hg2 : ∀ (t : ℚ) z,
      (M *ᵥ (t • z)) ⬝ᵥ (E.p *ᵥ (M *ᵥ (t • z)))
        = t ^ 2 * ((M *ᵥ z) ⬝ᵥ (E.p *ᵥ (M *ᵥ z))) :=
    fun t z => quad_smul M E.p t z
  have hcc : E.center ≠ Mi *ᵥ E.center := by
    intro h
    apply hc
    calc M *ᵥ E.center = M *ᵥ (Mi *ᵥ E.center) := by rw [← h]
      _ = E.center := by
          rw [Matrix.mulVec_mulVec, hMMi, Matrix.one_mulVec]
  have hu : E.center - Mi *ᵥ E.center ≠ 0 := sub_ne_zero.mpr hcc
  have hMu : M *ᵥ (E.center - Mi *ᵥ E.center) ≠ 0 := by
    intro h0
    apply hu
    have hinv : Mi *ᵥ (M *ᵥ (E.center - Mi *ᵥ E.center))
        = E.center - Mi *ᵥ E.center := by
      rw [Matrix.mulVec_mulVec, hMiM, Matrix.one_mulVec]
    rw [← hinv, h0, Matrix.mulVec_zero]
  have hpos : 0 < (M *ᵥ (E.center - Mi *ᵥ E.center)) ⬝ᵥ
      (E.p *ᵥ (M *ᵥ (E.center - Mi *ᵥ E.center))) := hpd _ hMu
  obtain ⟨y, hy1, hy2⟩ :=
    quad_sep (fun z => (M *ᵥ z) ⬝ᵥ (E.p *ᵥ (M *ᵥ z))) hg2 E.center
      (Mi *ᵥ E.center) E.alpha ha hpos
  apply hy2
  have h1 : E'.contains y := by
    unfold Ellipsoid.contains
    rw [hcen, hal, sub_nonpos, hp, quad_transpose]
    exact hy1
  have h2 := (hiff y).mp h1
  unfold Ellipsoid.contains at h2
  rw [sub_nonpos] at h2
  have key : M *ᵥ y - E.center = M *ᵥ (y - Mi *ᵥ E.center) := by
    rw [Matrix.mulVec_sub, Matrix.mulVec_mulVec, hMMi, Matrix.one_mulVec]
  rw [key] at h2
  exact h2

/-- Witness for C10 at the concrete ellipsoid `E1` (shape 1, level 1, center
1) and the transform `M = 2`: the transform keeps the center, so the result
differs from the exact pre-image. -/
theorem C10_coordinate_transform_witness :
    (E10.p = M2.transpose * E1.p * M2 ∧ E10.alpha = E1.alpha
      ∧ E10.center = E1.center)
    ∧ ¬ (∀ y, E10.contains y ↔ E1.contains (M2 *ᵥ y)) := by
  have hq : qInv M2 = some aK :=
    qInv_eq_some (by with_unfolding_all decide) (by with_unfolding_all decide)
  have hpd : PosDefQ E1.p := by
    intro x hx
    have hx0 : x 0 ≠ 0 := by
      intro h0
      apply hx
      funext i
      rw [Subsingleton.elim i 0]
      exact h0
    have hval : x ⬝ᵥ (E1.p *ᵥ x) = x 0 * x 0 := by
      unfold E1 Matrix.mulVec Matrix.dotProduct
      simp [Fin.sum_univ_one]
    show 0 < x ⬝ᵥ (E1.p *ᵥ x)
    rw [hval]
    exact mul_self_pos.mpr hx0
  have hc : M2 *ᵥ E1.center ≠ E1.center := by
    intro h
    have h0 := congrFun h 0
    unfold M2 E1 Matrix.mulVec Matrix.dotProduct at h0
    rw [Fin.sum_univ_one] at h0
    norm_num at h0
  have hok : E1.matmulE M2 = .ok E10 := by
    unfold Ellipsoid.matmulE Ellipsoid.mkE
    rw [dif_pos (by with_unfolding_all decide)]
    exact congrArg Except.ok
      (Ellipsoid.ext1 (mat1_ext (by with_unfolding_all decide)) rfl rfl)
  exact C10_coordinate_transform E1 M2 aK E10 hq hpd
    (by with_unfolding_all decide) hc hok

/-- Counterexample to claim C10 as stated: for the identity transform and the
ellipsoid `E1` with nonzero center, `E1 @ I` returns `E1` itself, which *is*
the exact pre-image of `E1` under the identity — so "whenever c is nonzero
the returned set is not the exact pre-image" is false; the failure requires
`M c ≠ c`, not merely `c ≠ 0`. -/
theorem C10_counterexample :
    E1.center ≠ 0
    ∧ E1.matmulE (1 : Mat 1) = .ok E1
    ∧ ∀ y, E1.contains y ↔ E1.contains ((1 : Mat 1) *ᵥ y) := by
  refine ⟨?_, ?_, ?_⟩
  · intro h
    have h0 := congrFun h 0
    unfold E1 at h0
    norm_num at h0
  · unfold Ellipsoid.matmulE
    rw [show (1 : Mat 1).transpose * E1.p * (1 : Mat 1) = E1.p by
      rw [Matrix.transpose_one, Matrix.one_mul, Matrix.mul_one]]
    unfold Ellipsoid.mkE
    rw [dif_pos E1.hchol]
  · intro y
    rw [Matrix.one_mulVec]

end PyMPC
